import Mathlib

/-!
Verification of the ralph-voice orchestration engine against its design
specification.  The Python sources are shallowly embedded: every function
below is translated from the corresponding function in the repository
(`schema.py`, `mcp_handler.py`, `audio_loop.py`, `ui/widgets.py`), with
Python dictionaries rendered as association lists in insertion order,
Python exceptions rendered as `Option`/`Except`/explicit outcome types,
and the cooperative concurrency of the four audio pipelines rendered as a
labelled small-step transition relation.
-/

/-! # Python JSON-like values

Values produced by `json.loads` and passed around as tool arguments and
results: `None`, booleans, numbers, strings, lists and dicts.  Dicts keep
insertion order, as Python dicts do.  Numbers are modelled as integers;
no claim exercises fractional payloads.
-/

mutual
/-- A Python value of JSON shape. -/
inductive Json where
  | null
  | bool (b : Bool)
  | num (n : Int)
  | str (s : String)
  | arr (xs : JList)
  | obj (fs : JFields)

/-- A Python list of `Json` values. -/
inductive JList where
  | nil
  | cons (hd : Json) (tl : JList)

/-- A Python dict with string keys in insertion order. -/
inductive JFields where
  | nil
  | cons (key : String) (val : Json) (tl : JFields)
end

/-- Whether a dict is empty (a falsy dict in Python). -/
def JFields.isNil : JFields → Bool
  | .nil => true
  | .cons _ _ _ => false

/-- Python `d.get(k)` for a string key: the first (only, in a real dict)
binding of `k`. -/
def getKey : JFields → String → Option Json
  | .nil, _ => none
  | .cons k v rest, key => if k = key then some v else getKey rest key

/-- Python `k in d` for a string key. -/
def hasKey (fs : JFields) (key : String) : Bool :=
  (getKey fs key).isSome

/-- Python `d[k] = v`: overwrite in place when the key is present
(keeping its position, as dict assignment does), append otherwise. -/
def setKey : JFields → String → Json → JFields
  | .nil, key, v => .cons key v .nil
  | .cons k w rest, key, v =>
      if k = key then .cons k v rest else .cons k w (setKey rest key v)

/-- The keys of a dict, in order. -/
def keysOf : JFields → List String
  | .nil => []
  | .cons k _ rest => k :: keysOf rest

/-- Concatenation of two field lists. -/
def appendF : JFields → JFields → JFields
  | .nil, ys => ys
  | .cons k v rest, ys => .cons k v (appendF rest ys)

mutual
/-- Python `==` on JSON-shaped values (structural).  The CPython
conflation of `True == 1` and of int with float is not exercised by any
claim and is not modelled. -/
def pyEq : Json → Json → Bool
  | .null, .null => true
  | .bool a, .bool b => a == b
  | .num a, .num b => a == b
  | .str a, .str b => a == b
  | .arr a, .arr b => pyEqList a b
  | .obj a, .obj b => pyEqFields a b
  | _, _ => false

/-- Elementwise `pyEq` on lists. -/
def pyEqList : JList → JList → Bool
  | .nil, .nil => true
  | .cons a as, .cons b bs => pyEq a b && pyEqList as bs
  | _, _ => false

/-- Keywise `pyEq` on dicts (same insertion order; sufficient for the
claims, which never compare reordered dicts). -/
def pyEqFields : JFields → JFields → Bool
  | .nil, .nil => true
  | .cons k a as, .cons j b bs => k == j && pyEq a b && pyEqFields as bs
  | _, _ => false
end

/-- Python truthiness of a JSON-shaped value. -/
def pyTruthy : Json → Bool
  | .null => false
  | .bool b => b
  | .num n => n != 0
  | .str s => s ≠ ""
  | .arr .nil => false
  | .arr (.cons _ _) => true
  | .obj .nil => false
  | .obj (.cons _ _ _) => true

/-- Whether a JSON-shaped value is hashable in Python: lists and dicts
are not, so using one as a dict key raises `TypeError`. -/
def pyHashable : Json → Bool
  | .arr _ => false
  | .obj _ => false
  | _ => true

/-- Whether the Python slice expression `x[:8]` evaluates without
raising: strings and lists slice, while `None`, booleans, numbers and
dicts raise `TypeError`. -/
def pySliceOk : Json → Bool
  | .str _ => true
  | .arr _ => true
  | _ => false

/-! # The per-project commit cache

`AudioLoop._last_commits` is a Python dict.  Its keys and values are
whatever `_cache_latest_commit` stores, hence arbitrary JSON-shaped
values, looked up by Python equality with a hashability check. -/

/-- The commit cache `AudioLoop._last_commits`, in insertion order. -/
abbrev Cache := List (Json × Json)

/-- Lookup by Python equality (the key is assumed hashable). -/
def lookupPy : Cache → Json → Option Json
  | [], _ => none
  | (k, v) :: rest, key => if pyEq k key then some v else lookupPy rest key

/-- Python `d[k] = v` on the cache: overwrite in place or append. -/
def setPy : Cache → Json → Json → Cache
  | [], key, v => [(key, v)]
  | (k, w) :: rest, key, v =>
      if pyEq k key then (k, v) :: rest else (k, w) :: setPy rest key v

/-- Python `d.get(k)`: `none` models the `TypeError` raised on an
unhashable key, `some o` the normal result. -/
def cacheGet (c : Cache) (key : Json) : Option (Option Json) :=
  if pyHashable key then some (lookupPy c key) else none

/-- Python `d[k] = v`: `none` models the `TypeError` raised on an
unhashable key. -/
def cacheSet (c : Cache) (key v : Json) : Option Cache :=
  if pyHashable key then some (setPy c key v) else none

/-! # Schema translation (`schema.py`)

`convert_property` walks an MCP JSON-Schema node and keeps only the
fields Gemini understands.  A result of `none` models an uncaught Python
exception (the `AttributeError` raised by `value.items()` when a
`properties` value is not a dict). -/

/-- Membership in `_STRIP_FIELDS` from `schema.py`. -/
def isStripped (k : String) : Bool :=
  k == "$schema" || k == "additionalProperties" || k == "$ref" ||
  k == "$defs" || k == "default" || k == "title"

/-- Membership in `_SUPPORTED_FIELDS` from `schema.py`. -/
def isSupported (k : String) : Bool :=
  k == "type" || k == "description" || k == "enum" || k == "required" ||
  k == "items" || k == "properties" || k == "nullable"

/-- The first element of a `type` union that is not `"null"`
(`non_null[0]` in the source). -/
def firstNonNull : JList → Option Json
  | .nil => none
  | .cons t rest => if pyEq t (.str "null") then firstNonNull rest else some t

/-- The translated `type` of a union: the first non-null member, with the
sentinel `"STRING"` when every member is `"null"`. -/
def typeOfUnion (l : JList) : Json :=
  match firstNonNull l with
  | some t => t
  | none => .str "STRING"

/-- Python `"null" in value` on a `type` union. -/
def unionHasNull : JList → Bool
  | .nil => false
  | .cons t rest => pyEq t (.str "null") || unionHasNull rest

mutual
/-- Embedding of `convert_property` from `schema.py`: a non-dict node is
returned unchanged; a dict node is rebuilt field by field.  `none`
models an uncaught exception during translation. -/
def convert_property : Json → Option Json
  | .obj fields => (convertFields .nil fields).map Json.obj
  | j => some j

/-- The field loop of `convert_property`, with `acc` the `result` dict
built so far.  Branches mirror the source order: stripped fields are
skipped; a list-valued `type` is normalized (a non-list `type` falls
through to the supported-fields branch of the source, which copies it,
via the last branch here); `properties` recurses over a dict value and
raises `AttributeError` (`none`) on a non-dict value; `items` recurses;
remaining supported fields are copied; everything else is dropped. -/
def convertFields (acc : JFields) : JFields → Option JFields
  | .nil => some acc
  | .cons k v rest =>
      if isStripped k then convertFields acc rest
      else if k = "type" then
        match v with
        | .arr l =>
            convertFields
              (setKey (setKey acc "type" (typeOfUnion l)) "nullable"
                (.bool (unionHasNull l))) rest
        | _ => convertFields (setKey acc "type" v) rest
      else if k = "properties" then
        match v with
        | .obj pf =>
            match convertProps pf with
            | some pf2 => convertFields (setKey acc "properties" (.obj pf2)) rest
            | none => none
        | _ => none
      else if k = "items" then
        match convert_property v with
        | some v2 => convertFields (setKey acc "items" v2) rest
        | none => none
      else if isSupported k then convertFields (setKey acc k v) rest
      else convertFields acc rest

/-- The dict comprehension over a `properties` value: convert every
child schema, propagating failure. -/
def convertProps : JFields → Option JFields
  | .nil => some .nil
  | .cons k v rest =>
      match convert_property v with
      | none => none
      | some v2 => (convertProps rest).map (JFields.cons k v2)
end

/-- The body of one iteration of the field loop, as a function on the
`result` dict: `some` of the updated dict, or `none` for a raise.
`convertFields` runs exactly this per field (`convertFields_cons`
below); the separate form makes the loop uniform to reason about. -/
def stepField (acc : JFields) (k : String) (v : Json) : Option JFields :=
  if isStripped k then some acc
  else if k = "type" then
    match v with
    | .arr l =>
        some (setKey (setKey acc "type" (typeOfUnion l)) "nullable"
          (.bool (unionHasNull l)))
    | _ => some (setKey acc "type" v)
  else if k = "properties" then
    match v with
    | .obj pf => (convertProps pf).map (fun pf2 => setKey acc "properties" (.obj pf2))
    | _ => none
  else if k = "items" then
    (convert_property v).map (fun v2 => setKey acc "items" v2)
  else if isSupported k then some (setKey acc k v)
  else some acc

/-! # Gemini declaration building (`mcp_tool_to_gemini`) -/

/-- An MCP tool as consumed by `mcp_tool_to_gemini`: name, description
and an optional input schema dict (`none` models a missing or `None`
schema). -/
structure MCPTool where
  name : String
  description : String
  inputSchema : Option JFields

/-- A Gemini function declaration: `parameters = none` models the
absence of the `parameters` key in the returned dict. -/
structure GeminiDecl where
  name : String
  description : String
  parameters : Option JFields

/-- Embedding of `mcp_tool_to_gemini` from `schema.py`.  `none` models
an uncaught exception while converting a `properties` value. -/
def mcp_tool_to_gemini (tool : MCPTool) : Option GeminiDecl :=
  match tool.inputSchema with
  | none => some ⟨tool.name, tool.description, none⟩
  | some s =>
    if s.isNil then some ⟨tool.name, tool.description, none⟩
    else
      let p1 : JFields :=
        match getKey s "type" with
        | some v => setKey .nil "type" v
        | none => .nil
      let p2o : Option JFields :=
        match getKey s "properties" with
        | some v =>
            if pyTruthy v then
              match v with
              | .obj pf => (convertProps pf).map (fun pf2 => setKey p1 "properties" (.obj pf2))
              | _ => none
            else some p1
        | none => some p1
      match p2o with
      | none => none
      | some p2 =>
        let p3 : JFields :=
          match getKey s "required" with
          | some v => setKey p2 "required" v
          | none => p2
        if p3.isNil then some ⟨tool.name, tool.description, none⟩
        else some ⟨tool.name, tool.description, some p3⟩

/-! # Text payloads and tool results (`audio_loop.py`)

The commit-cache extractor and the poller use result text only through
Python truthiness and `json.loads`.  A Python string is therefore
represented by that pair of observations: the empty string (falsy, and
unparseable), a non-empty string on which `json.loads` raises
`JSONDecodeError`, or a non-empty string parsing to a JSON value. -/

/-- A Python string as observed by `json.loads` and truthiness. -/
inductive PyStr where
  | empty
  | malformed
  | parsed (j : Json)

/-- A content block as duck-typed by the source: either it has a string
`text` attribute or it does not. -/
abbrev Block := Option PyStr

/-- The first block carrying a `text` attribute (the `for ... break`
loop in `_cache_latest_commit` and the loop in `_extract_text`). -/
def firstText : List Block → Option PyStr
  | [] => none
  | some t :: _ => some t
  | none :: rest => firstText rest

/-- A tool result as duck-typed by `_cache_latest_commit`: a plain
string, a list of content blocks, or any other object. -/
inductive PyResult where
  | str (s : PyStr)
  | list (blocks : List Block)
  | other

/-- The text-extraction prelude of `_cache_latest_commit`: a list yields
its first text block, a string yields itself, anything else yields
`None`. -/
def resultText : PyResult → Option PyStr
  | .str s => some s
  | .list bs => firstText bs
  | .other => none

/-! # Commit caching (`AudioLoop._cache_latest_commit`) -/

/-- Outcome of `_cache_latest_commit`: either a normal return with the
resulting cache, or an exception escaping the function (one not in the
`(json.JSONDecodeError, AttributeError)` handler) with the cache as
mutated before the raise. -/
inductive CacheOutcome where
  | ok (c : Cache)
  | raised (c : Cache)

/-- Python `args.get("project_dir") or data.get("project")`: the first
operand when truthy, otherwise the second. -/
def projectOf (args : JFields) (dataFields : JFields) : Option Json :=
  match getKey args "project_dir" with
  | some v => if pyTruthy v then some v else getKey dataFields "project"
  | none => getKey dataFields "project"

/-- Embedding of `AudioLoop._cache_latest_commit`.  The happy path
stores `data["latest_commit"]` under the project key and then evaluates
the f-string `commit[:8]` for the info event; storing under an
unhashable project or slicing a non-sliceable commit raises `TypeError`,
which escapes the narrow `except` clause.  `JSONDecodeError` (empty or
malformed text, via the `PyStr` representation) and `AttributeError`
(non-dict parse result) are swallowed, as in the source. -/
def cache_latest_commit (args : JFields) (result : PyResult) (cache : Cache) :
    CacheOutcome :=
  match resultText result with
  | none => .ok cache
  | some .empty => .ok cache
  | some .malformed => .ok cache
  | some (.parsed data) =>
    match data with
    | .obj dataFields =>
      match getKey dataFields "latest_commit", projectOf args dataFields with
      | some commit, some project =>
          if pyTruthy commit && pyTruthy project && !pyEq commit (.str "unknown") then
            match cacheSet cache project commit with
            | none => .raised cache
            | some c2 => if pySliceOk commit then .ok c2 else .raised c2
          else .ok cache
      | _, _ => .ok cache
    | _ => .ok cache

/-! # Tool-call dispatch (`AudioLoop.handle_tool_call`) -/

/-- A Gemini function call: name, correlation id, and the argument dict
(`none` models `fc.args` being `None`; keys are strings, as Gemini
argument dicts are JSON objects). -/
structure FunctionCall where
  name : String
  id : Option String
  args : Option JFields

/-- The response body sent back for one function call: `{"result": r}`
on success, `{"error": str(e)}` on failure. -/
inductive ResponseBody where
  | result (r : PyResult)
  | error (e : String)

/-- One `types.FunctionResponse` as sent via `send_tool_response`. -/
structure FunctionResponse where
  name : String
  id : Option String
  response : ResponseBody

/-- The behaviour of `mcp_client.call_tool` as seen by the dispatch
loop: for given name and arguments it either returns a result or raises
an exception with message `e` (its `str(e)`). -/
abbrev CallToolFn := String → JFields → Except String PyResult

/-- Outcome of the auto-injection prelude of `handle_tool_call` (the
code before the `try`): the final argument dict, or an exception.  The
prelude raises when `dict.get` is applied to an unhashable
`project_dir`, or when the info f-string slices a non-sliceable cached
commit (the slice runs after the injection, so a raise there still
aborts the call before dispatch). -/
inductive PreludeOutcome where
  | ok (args : JFields)
  | raised

/-- Embedding of the `ralph_changes` auto-injection prelude in
`handle_tool_call`: when the call is `ralph_changes` and omits
`since_commit`, look up the cached commit for `args.get("project_dir",
"")` and, when the cached value is truthy, inject it. -/
def injectSinceCommit (cache : Cache) (fc : FunctionCall) : PreludeOutcome :=
  let args := fc.args.getD .nil
  if fc.name = "ralph_changes" && !hasKey args "since_commit" then
    let projectDir := (getKey args "project_dir").getD (.str "")
    match cacheGet cache projectDir with
    | none => .raised
    | some none => .ok args
    | some (some cached) =>
        if pyTruthy cached then
          if pySliceOk cached then .ok (setKey args "since_commit" cached)
          else .raised
        else .ok args
  else .ok args

/-- Processing of a single function call in `handle_tool_call`: run the
prelude, dispatch through `call_tool`, on success run the commit-caching
step for `ralph_changes`/`ralph_status` (an exception there is caught by
the surrounding `except Exception`, which replaces the result body with
an error body), and build the correlated `FunctionResponse`.  `none`
models the prelude raising, which escapes `handle_tool_call` before any
response is sent for this call. -/
def processCall (ct : CallToolFn) (cache : Cache) (fc : FunctionCall) :
    Option (FunctionResponse × Cache) :=
  match injectSinceCommit cache fc with
  | .raised => none
  | .ok args =>
    match ct fc.name args with
    | .error e => some (⟨fc.name, fc.id, .error e⟩, cache)
    | .ok r =>
      if fc.name = "ralph_changes" || fc.name = "ralph_status" then
        match cache_latest_commit args r cache with
        | .ok c2 => some (⟨fc.name, fc.id, .result r⟩, c2)
        | .raised c2 => some (⟨fc.name, fc.id, .error "TypeError"⟩, c2)
      else some (⟨fc.name, fc.id, .result r⟩, cache)

/-- The observable outcome of `handle_tool_call` over a tool-call
request: the tool responses sent to the session in order, the final
commit cache, and whether an exception escaped the loop (aborting the
remaining calls unacknowledged). -/
structure DispatchResult where
  responses : List FunctionResponse
  cache : Cache
  raised : Bool

/-- Embedding of the `for fc in tool_call.function_calls` loop of
`AudioLoop.handle_tool_call`: process each call in order, sending one
response per call via `session.send_tool_response`; a prelude exception
aborts the loop. -/
def handle_tool_call (ct : CallToolFn) (cache : Cache) :
    List FunctionCall → DispatchResult
  | [] => ⟨[], cache, false⟩
  | fc :: rest =>
    match processCall ct cache fc with
    | none => ⟨[], cache, true⟩
    | some (resp, c2) =>
      let d := handle_tool_call ct c2 rest
      ⟨resp :: d.responses, d.cache, d.raised⟩

/-! # Capability registry (`mcp_handler.py`) -/

/-- Embedding of `MCPClient.call_tool`: `sessions` is the
`_tool_sessions` dict (tool name to owning provider session, sessions
numbered), and a successful dispatch is the invocation
`session.call_tool(name=name, arguments=arguments)` on the owning
session, recorded as the triple `(session, name, arguments)`.  An
unregistered name raises `ValueError(f"Unknown tool: {name}")` and no
session is invoked. -/
def call_tool (sessions : List (String × Nat)) (name : String)
    (arguments : JFields) : Except String (Nat × String × JFields) :=
  match sessions.lookup name with
  | none => .error ("Unknown tool: " ++ name)
  | some sid => .ok (sid, name, arguments)

/-! # The audio engine as a labelled transition system

The four pipelines of `AudioLoop` (`listen_audio`, `send_realtime`,
`receive_audio`, `play_audio`) plus `toggle_mute` run cooperatively
under asyncio: control changes hands only at `await` points.  The state
below records the two flags, the two queues and the position of the
capture task between its suspension points; the step relation has one
constructor per atomic segment of the source that touches this state.
Frames are abstracted to natural numbers.  `out_queue` is created with
`maxsize=5`, so `put` suspends exactly when five frames are queued;
`audio_in_queue` is unbounded (`put_nowait`). -/

/-- Position of the `listen_audio` task between awaits: suspended in the
device read, returned from the read and about to run the gate check, or
suspended inside `out_queue.put` on a full queue. -/
inductive ListenPC where
  | reading
  | haveFrame (f : Nat)
  | blockedPut (f : Nat)

/-- Shared engine state: the `playing` and `muted` flags, the bounded
outbound queue, the unbounded inbound playback queue and the capture
task position. -/
structure EngineState where
  playing : Bool
  muted : Bool
  outQueue : List Nat
  inQueue : List Nat
  listenPC : ListenPC

/-- Labels naming the atomic segment a step executes. -/
inductive EngineLabel where
  | readFrame (f : Nat)
  | gateSkip
  | gateEnqueue (f : Nat)
  | gateBlock
  | putComplete (f : Nat)
  | sendPop
  | recvData (f : Nat)
  | recvTurnEnd
  | playPop
  | playEnd
  | toggleMute

/-- Small-step semantics of the engine, one constructor per atomic
segment of the source:

* `readFrame`: `audio_stream.read` returns a frame.
* `gateSkip`: the gate `if not self.playing and not self.muted` fails
  and the frame is dropped.
* `gateEnqueue`: the gate passes and the queue is below `maxsize=5`, so
  `out_queue.put` appends without suspending, atomically with the check.
* `gateBlock`: the gate passes but the queue is full, so `put` suspends.
* `putComplete`: space appeared and the suspended `put` appends its
  frame; the flags are NOT rechecked (this is the code path the gate
  cannot protect).
* `sendPop`: `send_realtime` pops the front outbound frame.
* `recvData`: `receive_audio` gets an audio chunk, sets `playing` and
  appends to `audio_in_queue`.
* `recvTurnEnd`: after a turn, once `audio_in_queue` is drained,
  `receive_audio` clears `playing`.
* `playPop`: `play_audio` pops the front inbound frame.
* `playEnd`: the fallback heuristic of `play_audio` observes an empty
  inbound queue while `playing` and clears `playing`.
* `toggleMute`: `toggle_mute` flips `muted`.

Event emission and the session calls do not touch this state and are
omitted. -/
inductive EngineStep : EngineState → EngineLabel → EngineState → Prop where
  | readFrame (p m : Bool) (oq iq : List Nat) (f : Nat) :
      EngineStep ⟨p, m, oq, iq, .reading⟩ (.readFrame f)
        ⟨p, m, oq, iq, .haveFrame f⟩
  | gateSkip (p m : Bool) (oq iq : List Nat) (f : Nat) :
      p = true ∨ m = true →
      EngineStep ⟨p, m, oq, iq, .haveFrame f⟩ .gateSkip
        ⟨p, m, oq, iq, .reading⟩
  | gateEnqueue (oq iq : List Nat) (f : Nat) :
      oq.length < 5 →
      EngineStep ⟨false, false, oq, iq, .haveFrame f⟩ (.gateEnqueue f)
        ⟨false, false, oq ++ [f], iq, .reading⟩
  | gateBlock (oq iq : List Nat) (f : Nat) :
      5 ≤ oq.length →
      EngineStep ⟨false, false, oq, iq, .haveFrame f⟩ .gateBlock
        ⟨false, false, oq, iq, .blockedPut f⟩
  | putComplete (p m : Bool) (oq iq : List Nat) (f : Nat) :
      oq.length < 5 →
      EngineStep ⟨p, m, oq, iq, .blockedPut f⟩ (.putComplete f)
        ⟨p, m, oq ++ [f], iq, .reading⟩
  | sendPop (p m : Bool) (f : Nat) (oq iq : List Nat) (pc : ListenPC) :
      EngineStep ⟨p, m, f :: oq, iq, pc⟩ .sendPop ⟨p, m, oq, iq, pc⟩
  | recvData (p m : Bool) (oq iq : List Nat) (pc : ListenPC) (f : Nat) :
      EngineStep ⟨p, m, oq, iq, pc⟩ (.recvData f)
        ⟨true, m, oq, iq ++ [f], pc⟩
  | recvTurnEnd (p m : Bool) (oq : List Nat) (pc : ListenPC) :
      EngineStep ⟨p, m, oq, [], pc⟩ .recvTurnEnd ⟨false, m, oq, [], pc⟩
  | playPop (p m : Bool) (oq : List Nat) (f : Nat) (iq : List Nat)
      (pc : ListenPC) :
      EngineStep ⟨p, m, oq, f :: iq, pc⟩ .playPop ⟨p, m, oq, iq, pc⟩
  | playEnd (m : Bool) (oq : List Nat) (pc : ListenPC) :
      EngineStep ⟨true, m, oq, [], pc⟩ .playEnd ⟨false, m, oq, [], pc⟩
  | toggleMute (p m : Bool) (oq iq : List Nat) (pc : ListenPC) :
      EngineStep ⟨p, m, oq, iq, pc⟩ .toggleMute ⟨p, !m, oq, iq, pc⟩

/-- A step with some label. -/
def EngineStepAny (s t : EngineState) : Prop :=
  ∃ l, EngineStep s l t

/-- Reachability under any interleaving. -/
def EngineReaches : EngineState → EngineState → Prop :=
  Relation.ReflTransGen EngineStepAny

/-- The initial engine state of a run started with the default
`start_muted=False`: both flags clear, queues empty, capture about to
read. -/
def engineInit : EngineState := ⟨false, false, [], [], .reading⟩

/-! # The adaptive status poller (`ui/widgets.py`, `AgentPanel`)

`AgentPanel._poll` is modelled as a pure step on the panel state, with
the docker discovery result and the per-project `ralph_status` outcomes
supplied as inputs.  Timestamps (`time.monotonic`) and intervals are
modelled as integers: the source constants are whole seconds and the
claims depend only on the ordering of times, not on fractional
values. -/

/-- One parsed line of the `docker ps` output consumed by
`_discover_from_docker`: container name and the two labels. -/
structure DockerRow where
  name : String
  projectDir : String
  role : String

/-- Panel state touched by `_poll`: the tracked-project set (a Python
set; modelled as a duplicate-free list in some iteration order), the two
container attribution maps, the merged status view, the timestamp of the
last poll that saw containers, and the current poll interval. -/
structure PanelState where
  tracked : List String
  containerProjects : List (String × String)
  containerRoles : List (String × String)
  statusData : JFields
  lastNonempty : Int
  pollInterval : Int

/-- Insert into an association list of strings, overwriting in place. -/
def setAssoc : List (String × String) → String → String → List (String × String)
  | [], key, v => [(key, v)]
  | (k, w) :: rest, key, v =>
      if k = key then (k, v) :: rest else (k, w) :: setAssoc rest key v

/-- Embedding of the row loop of `_discover_from_docker`: rows with a
name and a project label register the project for tracking and record
the container maps (a `try ... except: pass` guards the whole probe;
a failed probe is modelled by passing fewer rows). -/
def applyDiscovery (st : PanelState) (rows : List DockerRow) : PanelState :=
  rows.foldl
    (fun s row =>
      if row.name ≠ "" ∧ row.projectDir ≠ "" then
        { s with
          tracked :=
            if row.projectDir ∈ s.tracked then s.tracked
            else s.tracked ++ [row.projectDir],
          containerProjects := setAssoc s.containerProjects row.name row.projectDir,
          containerRoles :=
            if row.role ≠ "" then setAssoc s.containerRoles row.name row.role
            else s.containerRoles }
      else s)
    st

/-- A tool result as duck-typed by `AgentPanel._extract_text`: a string,
a list of blocks, an object with a `content` list of blocks, or anything
else. -/
inductive WResult where
  | str (s : PyStr)
  | blocks (bs : List Block)
  | contentObj (bs : List Block)
  | other

/-- Embedding of `AgentPanel._extract_text`. -/
def extract_text : WResult → Option PyStr
  | .str s => some s
  | .blocks bs => firstText bs
  | .contentObj bs => firstText bs
  | .other => none

/-- Outcome of `self._mcp_client.call_tool("ralph_status", ...)` for one
tracked project: an exception (swallowed per project) or a result. -/
inductive PollCallResult where
  | exc
  | ok (r : WResult)

/-- Split a character list on `/`. -/
def splitSlash : List Char → List (List Char)
  | [] => [[]]
  | c :: rest =>
      if c = '/' then [] :: splitSlash rest
      else
        match splitSlash rest with
        | [] => [[c]]
        | h :: t => (c :: h) :: t

/-- Python `Path(p).name`: the last non-empty slash-separated component
(the `.` and `..` corner cases of `pathlib` are not exercised by any
claim). -/
def pathName (p : String) : String :=
  match ((splitSlash p.toList).filter (fun cs => cs ≠ [])).getLast? with
  | some cs => String.mk cs
  | none => ""

/-- The merge loop of `_poll`: for each tracked project, a successful
call whose extracted text is truthy and parses becomes an entry of the
new merged view keyed by `Path(project_dir).name`; exceptions, missing
text, falsy text and parse failures skip the project. -/
def mergedOf (tracked : List String) (results : String → PollCallResult) :
    JFields :=
  tracked.foldl
    (fun acc pd =>
      match results pd with
      | .exc => acc
      | .ok r =>
        match extract_text r with
        | some (.parsed j) => setKey acc (pathName pd) j
        | _ => acc)
    .nil

/-- Python `any(d.get("containers") for d in merged.values())`: short
circuits at the first truthy `containers`; a non-dict value reached
before one raises `AttributeError` (`none`), which escapes `_poll`. -/
def anyContainers : JFields → Option Bool
  | .nil => some false
  | .cons _ d rest =>
    match d with
    | .obj df =>
        if pyTruthy ((getKey df "containers").getD .null) then some true
        else anyContainers rest
    | _ => none

/-- The active and idle poll intervals and the staleness timeout of
`AgentPanel` (`_POLL_ACTIVE`, `_POLL_IDLE`, `_STALE_TIMEOUT`). -/
def POLL_ACTIVE : Int := 10
def POLL_IDLE : Int := 30
def STALE_TIMEOUT : Int := 30

/-- Embedding of `AgentPanel._poll` at time `now`: run discovery; with
nothing tracked, clear the merged view once stale and decay to the idle
interval; otherwise merge the per-project results, and on non-empty
merged data record a fresh timestamp and go active when some project
reports containers, else stay idle (clearing a stale view when the merge
came up empty).  `none` models the `AttributeError` escaping from the
`has_containers` generator. -/
def poll (st : PanelState) (now : Int) (rows : List DockerRow)
    (results : String → PollCallResult) : Option PanelState :=
  let st1 := applyDiscovery st rows
  if st1.tracked.isEmpty then
    let sd :=
      if !st1.statusData.isNil && decide (now - st1.lastNonempty > STALE_TIMEOUT)
      then JFields.nil else st1.statusData
    some { st1 with statusData := sd, pollInterval := POLL_IDLE }
  else
    let merged := mergedOf st1.tracked results
    if merged.isNil then
      let sd :=
        if now - st1.lastNonempty > STALE_TIMEOUT then JFields.nil
        else st1.statusData
      some { st1 with statusData := sd, pollInterval := POLL_IDLE }
    else
      match anyContainers merged with
      | none => none
      | some true =>
          some { st1 with
                 lastNonempty := now, pollInterval := POLL_ACTIVE,
                 statusData := merged }
      | some false =>
          some { st1 with pollInterval := POLL_IDLE, statusData := merged }

/-! # Derived predicates for the schema-translation claims -/

mutual
/-- Recursive key-discipline of a translated node: every key of a dict
node is in the supported set, and the same holds for every node
reachable through a `properties` child or an `items` child.  Non-dict
nodes carry no keys. -/
def goodJson : Json → Bool
  | .obj fs => goodFields fs
  | _ => true

/-- Key-discipline of the fields of a dict node: each key supported,
recursing into the children of a `properties` value and into an `items`
value. -/
def goodFields : JFields → Bool
  | .nil => true
  | .cons k v rest =>
      (isSupported k &&
        (if k = "properties" then goodProps v
         else if k = "items" then goodJson v
         else true)) &&
      goodFields rest

/-- Discipline of a `properties` value: when it is a dict, all its
child schemas are disciplined. -/
def goodProps : Json → Bool
  | .obj pf => goodPropsFields pf
  | _ => true

/-- Discipline of the children of a `properties` dict. -/
def goodPropsFields : JFields → Bool
  | .nil => true
  | .cons _ v rest => goodJson v && goodPropsFields rest
end

/-- The per-field discipline check of `goodFields`, as a standalone
function. -/
def goodChild (k : String) (v : Json) : Bool :=
  if k = "properties" then goodProps v
  else if k = "items" then goodJson v
  else true

mutual
/-- The domain on which `convert_property` cannot raise: every
`properties` field reachable through nested `properties`/`items`
children holds a dict whose children are again in the domain. -/
def allPropsOk : Json → Bool
  | .obj fs => allPropsOkFields fs
  | _ => true

/-- Fieldwise domain condition. -/
def allPropsOkFields : JFields → Bool
  | .nil => true
  | .cons k v rest =>
      (if isStripped k then true
       else if k = "properties" then
         match v with
         | .obj pf => allPropsOkProps pf
         | _ => false
       else if k = "items" then allPropsOk v
       else true) && allPropsOkFields rest

/-- Domain condition for the children of a `properties` dict. -/
def allPropsOkProps : JFields → Bool
  | .nil => true
  | .cons _ v rest => allPropsOk v && allPropsOkProps rest
end

/-- The `properties`-value domain condition, standalone: the value must
be a dict of in-domain children. -/
def propsDomainOk : Json → Bool
  | .obj pf => allPropsOkProps pf
  | _ => false

/-! # Dictionary lemmas -/

/-- Spine induction for field lists (the mutual recursor of `JFields`
specialised to goals that do not descend into values). -/
def JFieldsInd (motive : JFields → Prop) (hnil : motive .nil)
    (hcons : ∀ k v rest, motive rest → motive (.cons k v rest)) :
    ∀ l, motive l
  | .nil => hnil
  | .cons k v rest => hcons k v rest (JFieldsInd motive hnil hcons rest)

/-- Spine induction for JSON lists. -/
def JListInd (motive : JList → Prop) (hnil : motive .nil)
    (hcons : ∀ v rest, motive rest → motive (.cons v rest)) :
    ∀ l, motive l
  | .nil => hnil
  | .cons v rest => hcons v rest (JListInd motive hnil hcons rest)

theorem getKey_setKey_self (l : JFields) (k : String) (v : Json) :
    getKey (setKey l k v) k = some v := by
  induction l using JFieldsInd with
  | hnil => simp [setKey, getKey]
  | hcons k2 w rest ih =>
      by_cases h : k2 = k <;> simp [setKey, getKey, h, ih]

theorem getKey_setKey_ne (l : JFields) (k k2 : String) (v : Json)
    (h : k ≠ k2) : getKey (setKey l k v) k2 = getKey l k2 := by
  induction l using JFieldsInd with
  | hnil => simp [setKey, getKey, h]
  | hcons k3 w rest ih =>
      by_cases h3 : k3 = k
      · subst h3; simp [setKey, getKey, h]
      · by_cases h2 : k3 = k2
        · subst h2; simp [setKey, getKey, h3]
        · simp [setKey, getKey, h3, h2, ih]

theorem getKey_none_iff (l : JFields) (k : String) :
    getKey l k = none ↔ k ∉ keysOf l := by
  induction l using JFieldsInd with
  | hnil => simp [getKey, keysOf]
  | hcons k2 w rest ih =>
      by_cases h : k2 = k
      · simp [getKey, keysOf, h]
      · simp [getKey, keysOf, h, ih, Ne.symm h]

theorem keysOf_appendF (a b : JFields) :
    keysOf (appendF a b) = keysOf a ++ keysOf b := by
  induction a using JFieldsInd with
  | hnil => simp [appendF, keysOf]
  | hcons k v rest ih => simp [appendF, keysOf, ih]

theorem getKey_split (l : JFields) (k : String) (v : Json)
    (h : getKey l k = some v) :
    ∃ pre post, l = appendF pre (.cons k v post) ∧ k ∉ keysOf pre := by
  induction l using JFieldsInd with
  | hnil => simp [getKey] at h
  | hcons k2 w rest ih =>
      by_cases h2 : k2 = k
      · subst h2
        simp [getKey] at h
        exact ⟨.nil, rest, by simp [appendF, h], by simp [keysOf]⟩
      · simp [getKey, h2] at h
        obtain ⟨pre, post, hl, hpre⟩ := ih h
        exact ⟨.cons k2 w pre, post, by simp [appendF, hl],
          by simp [keysOf, hpre, Ne.symm h2]⟩

theorem convertFields_cons (acc : JFields) (k : String) (v : Json)
    (rest : JFields) :
    convertFields acc (.cons k v rest) =
      (stepField acc k v).bind (fun a => convertFields a rest) := by
  cases v with
  | null => simp only [convertFields, stepField]; split_ifs <;> simp [convert_property]
  | bool b => simp only [convertFields, stepField]; split_ifs <;> simp [convert_property]
  | num n => simp only [convertFields, stepField]; split_ifs <;> simp [convert_property]
  | str s2 => simp only [convertFields, stepField]; split_ifs <;> simp [convert_property]
  | arr l => simp only [convertFields, stepField]; split_ifs <;> simp [convert_property]
  | obj fs2 =>
      simp only [convertFields, stepField]
      split_ifs with h1 h2 h3 h4 h5
      · simp
      · simp
      · cases convertProps fs2 <;> simp
      · simp only [convert_property]
        cases convertFields JFields.nil fs2 <;> simp
      · simp
      · simp

theorem stepField_getKey_ne (acc a : JFields) (k k2 : String) (v : Json)
    (h : stepField acc k v = some a) (h2 : k2 ≠ k) (h4 : k ≠ "type") :
    getKey a k2 = getKey acc k2 := by
  have hset : ∀ w, getKey (setKey acc k w) k2 = getKey acc k2 :=
    fun w => getKey_setKey_ne _ _ _ _ (Ne.symm h2)
  rw [stepField.eq_def] at h
  by_cases h1 : isStripped k = true
  · rw [if_pos h1] at h
    injection h with h; subst h; rfl
  · rw [if_neg h1, if_neg h4] at h
    by_cases hpr : k = "properties"
    · subst hpr
      rw [if_pos rfl] at h
      cases v with
      | obj pf =>
          obtain ⟨pf2, _, rfl⟩ := Option.map_eq_some'.mp h
          exact hset _
      | null => simp at h
      | bool b => simp at h
      | num n => simp at h
      | str s2 => simp at h
      | arr l => simp at h
    · rw [if_neg hpr] at h
      by_cases hit : k = "items"
      · subst hit
        rw [if_pos rfl] at h
        obtain ⟨v2, _, rfl⟩ := Option.map_eq_some'.mp h
        exact hset _
      · rw [if_neg hit] at h
        by_cases hsup : isSupported k = true
        · rw [if_pos hsup] at h
          injection h with h; subst h; exact hset _
        · rw [if_neg hsup] at h
          injection h with h; subst h; rfl

theorem convertFields_append (xs ys : JFields) (acc : JFields) :
    convertFields acc (appendF xs ys) =
      (convertFields acc xs).bind (fun a => convertFields a ys) := by
  induction xs using JFieldsInd generalizing acc with
  | hnil => simp [appendF, convertFields]
  | hcons k v rest ih =>
      rw [show appendF (JFields.cons k v rest) ys =
        JFields.cons k v (appendF rest ys) from rfl]
      rw [convertFields_cons, convertFields_cons]
      cases stepField acc k v with
      | none => rfl
      | some a => simpa using ih a

theorem convertFields_stable (post : JFields) (acc out : JFields)
    (hT : "type" ∉ keysOf post) (hN : "nullable" ∉ keysOf post)
    (h : convertFields acc post = some out) :
    getKey out "type" = getKey acc "type" ∧
    getKey out "nullable" = getKey acc "nullable" := by
  induction post using JFieldsInd generalizing acc with
  | hnil =>
      simp [convertFields] at h
      subst h; exact ⟨rfl, rfl⟩
  | hcons k v rest ih =>
      simp [keysOf] at hT hN
      obtain ⟨hkT, hT⟩ := hT
      obtain ⟨hkN, hN⟩ := hN
      rw [convertFields_cons] at h
      cases hs : stepField acc k v with
      | none => rw [hs] at h; simp at h
      | some a =>
          rw [hs] at h
          rw [Option.some_bind] at h
          have hrest := ih a hT hN h
          have e1 := stepField_getKey_ne acc a k "type" v hs hkT (Ne.symm hkT)
          have e2 := stepField_getKey_ne acc a k "nullable" v hs hkN (Ne.symm hkT)
          exact ⟨hrest.1.trans e1, hrest.2.trans e2⟩

theorem convert_type_union (fields : JFields) (t : Json) (tys : JList)
    (out : JFields)
    (hnd : (keysOf fields).Nodup)
    (hty : getKey fields "type" = some (.arr tys))
    (htys : tys = .cons t (.cons (.str "null") .nil) ∨
            tys = .cons (.str "null") (.cons t .nil))
    (ht : pyEq t (.str "null") = false)
    (hnn : getKey fields "nullable" = none)
    (hconv : convertFields .nil fields = some out) :
    getKey out "type" = some t ∧ getKey out "nullable" = some (.bool true) := by
  obtain ⟨pre, post, hdec, hpre⟩ := getKey_split fields "type" (.arr tys) hty
  subst hdec
  have hkeys : keysOf (appendF pre (.cons "type" (.arr tys) post)) =
      keysOf pre ++ "type" :: keysOf post := by
    simp [keysOf_appendF, keysOf]
  rw [hkeys] at hnd
  have hTpost : "type" ∉ keysOf post := by
    have h2 : ("type" :: keysOf post).Nodup :=
      List.Nodup.sublist (List.sublist_append_right (keysOf pre) _) hnd
    exact (List.nodup_cons.mp h2).1
  have hNfields : "nullable" ∉ keysOf pre ++ "type" :: keysOf post := by
    rw [← hkeys]
    exact (getKey_none_iff _ _).mp hnn
  have hNpost : "nullable" ∉ keysOf post := by
    intro hmem
    exact hNfields (List.mem_append.mpr (Or.inr (List.mem_cons_of_mem _ hmem)))
  rw [convertFields_append] at hconv
  cases hA : convertFields .nil pre with
  | none => rw [hA] at hconv; simp at hconv
  | some acc1 =>
      rw [hA, Option.some_bind, convertFields_cons] at hconv
      rw [show stepField acc1 "type" (.arr tys) =
        some (setKey (setKey acc1 "type" (typeOfUnion tys)) "nullable"
          (.bool (unionHasNull tys))) from rfl] at hconv
      rw [Option.some_bind] at hconv
      have hst := convertFields_stable post _ out hTpost hNpost hconv
      have hTy : typeOfUnion tys = t := by
        rcases htys with h | h <;> subst h <;>
          simp [typeOfUnion, firstNonNull, ht, pyEq]
      have hNu : unionHasNull tys = true := by
        rcases htys with h | h <;> subst h <;> simp [unionHasNull, pyEq]
      constructor
      · rw [hst.1, getKey_setKey_ne _ _ _ _ (by decide), getKey_setKey_self, hTy]
      · rw [hst.2, getKey_setKey_self, hNu]

theorem goodFields_cons (k : String) (v : Json) (rest : JFields) :
    goodFields (.cons k v rest) =
      ((isSupported k && goodChild k v) && goodFields rest) := rfl

theorem optMapSome {α β : Type} (f : α → β) (x : α) :
    Option.map f (some x) = some (f x) := rfl

theorem goodFields_setKey (acc : JFields) (k : String) (v : Json)
    (hacc : goodFields acc = true) (hk : isSupported k = true)
    (hv : goodChild k v = true) : goodFields (setKey acc k v) = true := by
  induction acc using JFieldsInd with
  | hnil =>
      rw [show setKey .nil k v = .cons k v .nil from rfl,
        goodFields_cons, hk, hv]
      rfl
  | hcons k2 w rest ih =>
      rw [goodFields_cons, Bool.and_eq_true, Bool.and_eq_true] at hacc
      obtain ⟨⟨h1, h2⟩, h3⟩ := hacc
      by_cases he : k2 = k
      · subst he
        simp only [setKey]
        rw [if_pos trivial, goodFields_cons, h1, hv, h3]
        rfl
      · simp only [setKey]
        rw [if_neg he, goodFields_cons, h1, h2, ih h3]
        rfl

mutual
/-- Whatever `convert_property` returns satisfies the recursive
key-discipline. -/
def convert_keeps_good : ∀ j r, convert_property j = some r → goodJson r = true
  | .obj fs, r, h => by
      simp only [convert_property] at h
      cases hcf : convertFields JFields.nil fs with
      | none => rw [hcf] at h; simp at h
      | some out =>
          rw [hcf, optMapSome, Option.some.injEq] at h
          subst h
          exact convertFields_keep_good fs JFields.nil out hcf rfl
  | .null, r, h => by
      rw [show convert_property .null = some .null from rfl,
        Option.some.injEq] at h
      subst h; rfl
  | .bool b, r, h => by
      rw [show convert_property (.bool b) = some (.bool b) from rfl,
        Option.some.injEq] at h
      subst h; rfl
  | .num n, r, h => by
      rw [show convert_property (.num n) = some (.num n) from rfl,
        Option.some.injEq] at h
      subst h; rfl
  | .str s2, r, h => by
      rw [show convert_property (.str s2) = some (.str s2) from rfl,
        Option.some.injEq] at h
      subst h; rfl
  | .arr l, r, h => by
      rw [show convert_property (.arr l) = some (.arr l) from rfl,
        Option.some.injEq] at h
      subst h; rfl

/-- The field loop preserves the key-discipline of the `result` dict. -/
def convertFields_keep_good :
    ∀ fs acc out, convertFields acc fs = some out →
      goodFields acc = true → goodFields out = true
  | .nil, acc, out, h, hacc => by
      rw [show convertFields acc .nil = some acc from rfl,
        Option.some.injEq] at h
      subst h; exact hacc
  | .cons k v rest, acc, out, h, hacc => by
      rw [convertFields_cons] at h
      cases hs : stepField acc k v with
      | none => rw [hs] at h; simp at h
      | some a =>
          rw [hs, Option.some_bind] at h
          refine convertFields_keep_good rest a out h ?_
          rw [stepField.eq_def] at hs
          by_cases h1 : isStripped k = true
          · rw [if_pos h1] at hs
            injection hs with hs; subst hs; exact hacc
          · rw [if_neg h1] at hs
            by_cases hty : k = "type"
            · subst hty
              rw [if_pos rfl] at hs
              cases v with
              | arr l =>
                  injection hs with hs; subst hs
                  exact goodFields_setKey _ _ _
                    (goodFields_setKey _ _ _ hacc (by decide) rfl)
                    (by decide) rfl
              | null =>
                  injection hs with hs; subst hs
                  exact goodFields_setKey _ _ _ hacc (by decide) rfl
              | bool b =>
                  injection hs with hs; subst hs
                  exact goodFields_setKey _ _ _ hacc (by decide) rfl
              | num n =>
                  injection hs with hs; subst hs
                  exact goodFields_setKey _ _ _ hacc (by decide) rfl
              | str s2 =>
                  injection hs with hs; subst hs
                  exact goodFields_setKey _ _ _ hacc (by decide) rfl
              | obj fs2 =>
                  injection hs with hs; subst hs
                  exact goodFields_setKey _ _ _ hacc (by decide) rfl
            · rw [if_neg hty] at hs
              by_cases hpr : k = "properties"
              · subst hpr
                rw [if_pos rfl] at hs
                cases v with
                | obj pf =>
                    obtain ⟨pf2, hpf2, hset⟩ := Option.map_eq_some'.mp hs
                    subst hset
                    refine goodFields_setKey _ _ _ hacc (by decide) ?_
                    show goodPropsFields pf2 = true
                    exact convertProps_good pf pf2 hpf2
                | null => simp at hs
                | bool b => simp at hs
                | num n => simp at hs
                | str s2 => simp at hs
                | arr l => simp at hs
              · rw [if_neg hpr] at hs
                by_cases hit : k = "items"
                · subst hit
                  rw [if_pos rfl] at hs
                  obtain ⟨v2, hv2, hset⟩ := Option.map_eq_some'.mp hs
                  subst hset
                  refine goodFields_setKey _ _ _ hacc (by decide) ?_
                  show goodJson v2 = true
                  exact convert_keeps_good v v2 hv2
                · rw [if_neg hit] at hs
                  by_cases hsup : isSupported k = true
                  · rw [if_pos hsup] at hs
                    injection hs with hs; subst hs
                    refine goodFields_setKey _ _ _ hacc hsup ?_
                    rw [goodChild, if_neg hpr, if_neg hit]
                  · rw [if_neg hsup] at hs
                    injection hs with hs; subst hs; exact hacc

/-- The `properties` comprehension yields disciplined children. -/
def convertProps_good :
    ∀ pf pf2, convertProps pf = some pf2 → goodPropsFields pf2 = true
  | .nil, pf2, h => by
      rw [show convertProps .nil = some .nil from rfl, Option.some.injEq] at h
      subst h; rfl
  | .cons k v rest, pf2, h => by
      simp only [convertProps] at h
      cases hcv : convert_property v with
      | none => rw [hcv] at h; simp at h
      | some v2 =>
          rw [hcv] at h
          have h2 : Option.map (JFields.cons k v2) (convertProps rest) = some pf2 := h
          cases hcr : convertProps rest with
          | none => rw [hcr] at h2; simp at h2
          | some r2 =>
              rw [hcr, optMapSome, Option.some.injEq] at h2
              subst h2
              show (goodJson v2 && goodPropsFields r2) = true
              rw [convert_keeps_good v v2 hcv, convertProps_good rest r2 hcr]
              rfl
end

theorem allPropsOkFields_cons (k : String) (v : Json) (rest : JFields) :
    allPropsOkFields (.cons k v rest) =
      ((if isStripped k then true
        else if k = "properties" then propsDomainOk v
        else if k = "items" then allPropsOk v
        else true) && allPropsOkFields rest) := by
  cases v <;> rfl

mutual
/-- On the `allPropsOk` domain, `convert_property` cannot raise. -/
def convert_total : ∀ j, allPropsOk j = true → (convert_property j).isSome = true
  | .obj fs, h => by
      simp only [convert_property]
      have h2 := convertFields_total fs JFields.nil h
      cases hcf : convertFields JFields.nil fs with
      | none => rw [hcf] at h2; simp at h2
      | some out => rfl
  | .null, _ => rfl
  | .bool b, _ => rfl
  | .num n, _ => rfl
  | .str s2, _ => rfl
  | .arr l, _ => rfl

/-- On the `allPropsOk` domain, the field loop cannot raise, for any
accumulated `result` dict. -/
def convertFields_total :
    ∀ fs acc, allPropsOkFields fs = true → (convertFields acc fs).isSome = true
  | .nil, acc, _ => rfl
  | .cons k v rest, acc, h => by
      rw [allPropsOkFields_cons, Bool.and_eq_true] at h
      obtain ⟨hc, hrest⟩ := h
      rw [convertFields_cons]
      have hstep : (stepField acc k v).isSome = true := by
        rw [stepField.eq_def]
        by_cases h1 : isStripped k = true
        · rw [if_pos h1]; rfl
        · rw [if_neg h1]
          rw [if_neg h1] at hc
          by_cases hty : k = "type"
          · subst hty
            rw [if_pos rfl]
            cases v <;> rfl
          · rw [if_neg hty]
            by_cases hpr : k = "properties"
            · subst hpr
              rw [if_pos rfl]
              rw [if_pos rfl] at hc
              cases v with
              | obj pf =>
                  rw [show propsDomainOk (.obj pf) = allPropsOkProps pf
                    from rfl] at hc
                  have h3 := convertProps_total pf hc
                  show (Option.map
                    (fun pf2 => setKey acc "properties" (Json.obj pf2))
                    (convertProps pf)).isSome = true
                  cases hcp : convertProps pf with
                  | none => rw [hcp] at h3; simp at h3
                  | some pf2 => rfl
              | null => simp [propsDomainOk] at hc
              | bool b => simp [propsDomainOk] at hc
              | num n => simp [propsDomainOk] at hc
              | str s2 => simp [propsDomainOk] at hc
              | arr l => simp [propsDomainOk] at hc
            · rw [if_neg hpr]
              rw [if_neg hpr] at hc
              by_cases hit : k = "items"
              · subst hit
                rw [if_pos rfl]
                rw [if_pos rfl] at hc
                have h3 := convert_total v hc
                cases hcv : convert_property v with
                | none => rw [hcv] at h3; simp at h3
                | some v2 => rfl
              · rw [if_neg hit]
                by_cases hsup : isSupported k = true
                · rw [if_pos hsup]; rfl
                · rw [if_neg hsup]; rfl
      obtain ⟨a, ha⟩ := Option.isSome_iff_exists.mp hstep
      rw [ha, Option.some_bind]
      exact convertFields_total rest a hrest

/-- On the `allPropsOk` domain, the `properties` comprehension cannot
raise. -/
def convertProps_total :
    ∀ pf, allPropsOkProps pf = true → (convertProps pf).isSome = true
  | .nil, _ => rfl
  | .cons k v rest, h => by
      have h2 : (allPropsOk v && allPropsOkProps rest) = true := h
      rw [Bool.and_eq_true] at h2
      obtain ⟨hv, hrest⟩ := h2
      simp only [convertProps]
      have h3 := convert_total v hv
      cases hcv : convert_property v with
      | none => rw [hcv] at h3; simp at h3
      | some v2 =>
          show (Option.map (JFields.cons k v2) (convertProps rest)).isSome = true
          have h4 := convertProps_total rest hrest
          cases hcr : convertProps rest with
          | none => rw [hcr] at h4; simp at h4
          | some r2 => rfl
end

/-! # Claim theorems -/

/-- C3: when `handle_tool_call` processes a `ralph_changes` call with
arguments `{"project_dir": "/p"}` and no `since_commit`, and the commit
cache maps `/p` to `deadbeef`, the arguments passed on to
`mcp_client.call_tool` are `{"project_dir": "/p", "since_commit":
"deadbeef"}`; with no cache entry for `/p` the arguments are forwarded
unchanged.  The last two conjuncts observe the dispatched arguments
through `processCall` with an oracle that answers by whether
`since_commit = "deadbeef"` was received. -/
theorem auto_inject_since_commit :
    injectSinceCommit [(Json.str "/p", Json.str "deadbeef")]
      ⟨"ralph_changes", some "call-1",
        some (.cons "project_dir" (.str "/p") .nil)⟩ =
      .ok (.cons "project_dir" (.str "/p")
        (.cons "since_commit" (.str "deadbeef") .nil)) ∧
    injectSinceCommit []
      ⟨"ralph_changes", some "call-1",
        some (.cons "project_dir" (.str "/p") .nil)⟩ =
      .ok (.cons "project_dir" (.str "/p") .nil) ∧
    processCall
      (fun _ a =>
        if pyEq ((getKey a "since_commit").getD .null) (.str "deadbeef")
        then .ok .other else .error "no since_commit")
      [(Json.str "/p", Json.str "deadbeef")]
      ⟨"ralph_changes", some "call-1",
        some (.cons "project_dir" (.str "/p") .nil)⟩ =
      some (⟨"ralph_changes", some "call-1", .result .other⟩,
        [(Json.str "/p", Json.str "deadbeef")]) ∧
    processCall
      (fun _ a =>
        if pyEq ((getKey a "since_commit").getD .null) (.str "deadbeef")
        then .ok .other else .error "no since_commit")
      []
      ⟨"ralph_changes", some "call-1",
        some (.cons "project_dir" (.str "/p") .nil)⟩ =
      some (⟨"ralph_changes", some "call-1", .error "no since_commit"⟩,
        []) := by
  exact ⟨rfl, rfl, rfl, rfl⟩

theorem lookupPy_setPy_str (c : Cache) (s : String) (v : Json) :
    lookupPy (setPy c (.str s) v) (.str s) = some v := by
  induction c with
  | nil => simp [setPy, lookupPy, pyEq]
  | cons kv rest ih =>
      obtain ⟨k, w⟩ := kv
      by_cases h : pyEq k (.str s) = true <;>
        simp [setPy, lookupPy, pyEq, h, ih]

/-- C4: a tool result whose text parses to `{"latest_commit": c,
"project": "/p"}` with no `project_dir` argument updates the cache
(from any prior state) so `/p` maps to `c`, for any non-empty,
non-sentinel commit string `c`; the sentinel `"unknown"` and a missing
`latest_commit` leave the cache unchanged. -/
theorem cache_latest_commit_update (commit : String) (c : Cache)
    (h1 : commit ≠ "") (h2 : commit ≠ "unknown") :
    (cache_latest_commit .nil
      (.str (.parsed (.obj (.cons "latest_commit" (.str commit)
        (.cons "project" (.str "/p") .nil))))) c =
      .ok (setPy c (.str "/p") (.str commit)) ∧
     lookupPy (setPy c (.str "/p") (.str commit)) (.str "/p") =
      some (.str commit)) ∧
    cache_latest_commit .nil
      (.str (.parsed (.obj (.cons "latest_commit" (.str "unknown")
        (.cons "project" (.str "/p") .nil))))) c = .ok c ∧
    cache_latest_commit .nil
      (.str (.parsed (.obj (.cons "project" (.str "/p") .nil)))) c =
      .ok c := by
  refine ⟨⟨?_, lookupPy_setPy_str c "/p" (.str commit)⟩, rfl, rfl⟩
  simp [cache_latest_commit, resultText, projectOf, getKey, pyTruthy, pyEq,
    cacheSet, pyHashable, setPy, pySliceOk, h1, h2]

/-- Witness for C4 at the commit string `abc123def` over the empty
cache. -/
theorem cache_latest_commit_update_witness :
    cache_latest_commit .nil
      (.str (.parsed (.obj (.cons "latest_commit" (.str "abc123def")
        (.cons "project" (.str "/p") .nil))))) [] =
      .ok (setPy [] (.str "/p") (.str "abc123def")) ∧
    lookupPy (setPy [] (.str "/p") (.str "abc123def")) (.str "/p") =
      some (.str "abc123def") :=
  (cache_latest_commit_update "abc123def" [] (by decide) (by decide)).1

/-- C5: `MCPClient.call_tool` on a name missing from `_tool_sessions`
raises the unknown-tool error and invokes no provider session; on a
registered name it invokes `call_tool` on exactly the owning session
with the given name and arguments. -/
theorem call_tool_unknown_and_routing (sessions : List (String × Nat))
    (name : String) (args : JFields) :
    (sessions.lookup name = none →
      call_tool sessions name args = .error ("Unknown tool: " ++ name)) ∧
    (∀ sid, sessions.lookup name = some sid →
      call_tool sessions name args = .ok (sid, name, args)) := by
  constructor
  · intro h; simp [call_tool, h]
  · intro sid h; simp [call_tool, h]

/-- Witness for C5 on a one-entry registry. -/
theorem call_tool_unknown_and_routing_witness :
    call_tool [("ralph_status", 0)] "nope" .nil =
      .error ("Unknown tool: " ++ "nope") ∧
    call_tool [("ralph_status", 0)] "ralph_status" .nil =
      .ok (0, "ralph_status", .nil) :=
  ⟨(call_tool_unknown_and_routing [("ralph_status", 0)] "nope" .nil).1 rfl,
   (call_tool_unknown_and_routing [("ralph_status", 0)] "ralph_status" .nil).2
     0 rfl⟩

/-- C8 (failing input): on a result whose payload is
`{"latest_commit": 5, "project": "/p"}` — a non-string commit —
`_cache_latest_commit` stores the value and then raises `TypeError`
from `commit[:8]` in the info f-string, an exception outside its
`(json.JSONDecodeError, AttributeError)` handler. -/
theorem cache_latest_commit_raises :
    cache_latest_commit .nil
      (.str (.parsed (.obj (.cons "latest_commit" (.num 5)
        (.cons "project" (.str "/p") .nil))))) [] =
      .raised [(Json.str "/p", Json.num 5)] := rfl

/-- C10: for a tool with an empty or missing input schema,
`mcp_tool_to_gemini` returns exactly the name and description with no
`parameters` key; the key is likewise omitted whenever the schema
yields no `type`, no truthy `properties`, and no `required` list. -/
theorem mcp_tool_to_gemini_no_parameters (t : MCPTool) :
    ((t.inputSchema = none ∨ t.inputSchema = some .nil) →
      mcp_tool_to_gemini t = some ⟨t.name, t.description, none⟩) ∧
    (∀ s, t.inputSchema = some s → s.isNil = false →
      getKey s "type" = none →
      (getKey s "properties" = none ∨
        ∃ v, getKey s "properties" = some v ∧ pyTruthy v = false) →
      getKey s "required" = none →
      mcp_tool_to_gemini t = some ⟨t.name, t.description, none⟩) := by
  obtain ⟨n, d, iso⟩ := t
  constructor
  · rintro (h | h) <;> subst h <;> rfl
  · intro s hs hnil hty hprop hreq
    simp only at hs
    subst hs
    rcases hprop with hp | ⟨v, hp, hv⟩
    · simp [mcp_tool_to_gemini, hnil, hty, hp, hreq, JFields.isNil]
    · simp [mcp_tool_to_gemini, hnil, hty, hp, hv, hreq, JFields.isNil]

theorem convert_property_props_one (pk : String) (inner : Json) :
    convert_property (.obj (.cons "properties"
        (.obj (.cons pk inner .nil)) .nil)) =
      (convert_property inner).map (fun r =>
        .obj (.cons "properties" (.obj (.cons pk r .nil)) .nil)) := by
  cases hcv : convert_property inner with
  | none =>
      simp [convert_property, convertFields_cons, stepField, isStripped,
        convertProps, hcv, setKey]
  | some r =>
      simp [convert_property, convertFields_cons, stepField, isStripped,
        convertProps, hcv, setKey, convertFields]

theorem convert_property_items_one (inner : Json) :
    convert_property (.obj (.cons "items" inner .nil)) =
      (convert_property inner).map (fun r => .obj (.cons "items" r .nil)) := by
  cases hcv : convert_property inner with
  | none =>
      simp [convert_property, convertFields_cons, stepField, isStripped,
        hcv, setKey]
  | some r =>
      simp [convert_property, convertFields_cons, stepField, isStripped,
        hcv, setKey, convertFields]

/-- C6 (amended): for a schema dict whose `type` is a two-element union
of a non-null type with `"null"` and which carries no explicit
`nullable` field of its own, `convert_property` yields `type` equal to
the non-null member and `nullable = true`; the same normalization
applies to such a node nested under `properties` or `items`.  (An
explicit `nullable` field in the node overwrites the derived flag, see
the counterexample.) -/
theorem convert_property_nullable_union (fields : JFields) (t : Json)
    (tys : JList)
    (hnd : (keysOf fields).Nodup)
    (hty : getKey fields "type" = some (.arr tys))
    (htys : tys = .cons t (.cons (.str "null") .nil) ∨
            tys = .cons (.str "null") (.cons t .nil))
    (ht : pyEq t (.str "null") = false)
    (hnn : getKey fields "nullable" = none) :
    (∀ out, convert_property (.obj fields) = some (.obj out) →
      getKey out "type" = some t ∧
      getKey out "nullable" = some (.bool true)) ∧
    (∀ pk r, convert_property (.obj (.cons "properties"
        (.obj (.cons pk (.obj fields) .nil)) .nil)) = some r →
      ∃ out, r = .obj (.cons "properties"
          (.obj (.cons pk (.obj out) .nil)) .nil) ∧
        getKey out "type" = some t ∧
        getKey out "nullable" = some (.bool true)) ∧
    (∀ r, convert_property (.obj (.cons "items" (.obj fields) .nil)) =
        some r →
      ∃ out, r = .obj (.cons "items" (.obj out) .nil) ∧
        getKey out "type" = some t ∧
        getKey out "nullable" = some (.bool true)) := by
  have main : ∀ out, convert_property (.obj fields) = some (.obj out) →
      getKey out "type" = some t ∧
      getKey out "nullable" = some (.bool true) := by
    intro out h
    have h2 : (convertFields .nil fields).map Json.obj = some (.obj out) := h
    cases hcf : convertFields .nil fields with
    | none => rw [hcf] at h2; simp at h2
    | some o =>
        rw [hcf, optMapSome, Option.some.injEq] at h2
        injection h2 with h2
        subst h2
        exact convert_type_union fields t tys o hnd hty htys ht hnn hcf
  refine ⟨main, ?_, ?_⟩
  · intro pk r h
    rw [convert_property_props_one] at h
    cases hcv : convert_property (.obj fields) with
    | none => rw [hcv] at h; simp at h
    | some q =>
        rw [hcv, optMapSome, Option.some.injEq] at h
        subst h
        have hq : ∃ o, q = Json.obj o := by
          have h3 : (convertFields .nil fields).map Json.obj = some q := hcv
          cases hcf : convertFields .nil fields with
          | none => rw [hcf] at h3; simp at h3
          | some o =>
              rw [hcf, optMapSome, Option.some.injEq] at h3
              exact ⟨o, h3.symm⟩
        obtain ⟨o, rfl⟩ := hq
        exact ⟨o, rfl, main o hcv⟩
  · intro r h
    rw [convert_property_items_one] at h
    cases hcv : convert_property (.obj fields) with
    | none => rw [hcv] at h; simp at h
    | some q =>
        rw [hcv, optMapSome, Option.some.injEq] at h
        subst h
        have hq : ∃ o, q = Json.obj o := by
          have h3 : (convertFields .nil fields).map Json.obj = some q := hcv
          cases hcf : convertFields .nil fields with
          | none => rw [hcf] at h3; simp at h3
          | some o =>
              rw [hcf, optMapSome, Option.some.injEq] at h3
              exact ⟨o, h3.symm⟩
        obtain ⟨o, rfl⟩ := hq
        exact ⟨o, rfl, main o hcv⟩

/-- Witness for C6 on the node `{"type": ["string", "null"]}`. -/
theorem convert_property_nullable_union_witness :
    (keysOf (.cons "type" (.arr (.cons (.str "string")
      (.cons (.str "null") .nil))) .nil)).Nodup ∧
    convert_property (.obj (.cons "type" (.arr (.cons (.str "string")
      (.cons (.str "null") .nil))) .nil)) =
      some (.obj (.cons "type" (.str "string")
        (.cons "nullable" (.bool true) .nil))) ∧
    getKey (.cons "type" (.str "string") (.cons "nullable" (.bool true) .nil))
      "type" = some (.str "string") ∧
    getKey (.cons "type" (.str "string") (.cons "nullable" (.bool true) .nil))
      "nullable" = some (.bool true) :=
  ⟨by simp [keysOf], rfl,
   (convert_property_nullable_union
      (.cons "type" (.arr (.cons (.str "string") (.cons (.str "null") .nil)))
        .nil)
      (.str "string") (.cons (.str "string") (.cons (.str "null") .nil))
      (by simp [keysOf]) rfl (Or.inl rfl) rfl rfl).1
    (.cons "type" (.str "string") (.cons "nullable" (.bool true) .nil)) rfl⟩

/-- C6 (counterexample to the claim as stated): the node
`{"type": ["string", "null"], "nullable": false}` has a two-element
`type` union including `"null"`, yet the translated node carries
`nullable = false`, because the copied explicit `nullable` field
overwrites the derived flag. -/
theorem convert_property_nullable_overwritten :
    convert_property (.obj (.cons "type"
        (.arr (.cons (.str "string") (.cons (.str "null") .nil)))
        (.cons "nullable" (.bool false) .nil))) =
      some (.obj (.cons "type" (.str "string")
        (.cons "nullable" (.bool false) .nil))) ∧
    getKey (.cons "type" (.str "string") (.cons "nullable" (.bool false) .nil))
      "nullable" = some (.bool false) := ⟨rfl, rfl⟩

/-- C7 (amended): translation cannot raise on any schema whose
reachable `properties` values are all dicts (the `allPropsOk` domain),
and whenever it returns a node, that node draws its keys only from the
supported set `{type, description, enum, required, items, properties,
nullable}`, recursively through `properties` and `items` children;
unsupported fields are dropped.  (On a non-dict `properties` value the
source raises `AttributeError`, see the counterexample.) -/
theorem convert_property_supported_keys :
    (∀ j, allPropsOk j = true → (convert_property j).isSome = true) ∧
    (∀ j r, convert_property j = some r → goodJson r = true) :=
  ⟨convert_total, convert_keeps_good⟩

/-- Witness for C7 on `{"title": "x", "type": "string"}`: in domain,
translation succeeds, and the output keys are disciplined. -/
theorem convert_property_supported_keys_witness :
    allPropsOk (.obj (.cons "title" (.str "x")
      (.cons "type" (.str "string") .nil))) = true ∧
    (convert_property (.obj (.cons "title" (.str "x")
      (.cons "type" (.str "string") .nil)))).isSome = true ∧
    convert_property (.obj (.cons "title" (.str "x")
      (.cons "type" (.str "string") .nil))) =
      some (.obj (.cons "type" (.str "string") .nil)) ∧
    goodJson (.obj (.cons "type" (.str "string") .nil)) = true :=
  ⟨rfl,
   convert_property_supported_keys.1
     (.obj (.cons "title" (.str "x") (.cons "type" (.str "string") .nil))) rfl,
   rfl,
   convert_property_supported_keys.2
     (.obj (.cons "title" (.str "x") (.cons "type" (.str "string") .nil)))
     (.obj (.cons "type" (.str "string") .nil)) rfl⟩

/-- C7 (counterexample to the claim as stated): translation fails on
`{"properties": 5}` — `value.items()` raises `AttributeError`, so
translation is not total. -/
theorem convert_property_fails_on_nondict_properties :
    convert_property (.obj (.cons "properties" (.num 5) .nil)) = none := rfl

/-- Witness for C10 on a schema-less tool and a no-parameter schema. -/
theorem mcp_tool_to_gemini_no_parameters_witness :
    mcp_tool_to_gemini ⟨"ralph_stop", "Stop agents", none⟩ =
      some ⟨"ralph_stop", "Stop agents", none⟩ ∧
    mcp_tool_to_gemini ⟨"ping", "health check",
        some (.cons "additionalProperties" (.bool false) .nil)⟩ =
      some ⟨"ping", "health check", none⟩ :=
  ⟨(mcp_tool_to_gemini_no_parameters ⟨"ralph_stop", "Stop agents", none⟩).1
      (Or.inl rfl),
   (mcp_tool_to_gemini_no_parameters ⟨"ping", "health check",
        some (.cons "additionalProperties" (.bool false) .nil)⟩).2
      (.cons "additionalProperties" (.bool false) .nil)
      rfl rfl rfl (Or.inl rfl) rfl⟩

theorem processCall_spec (ct : CallToolFn) (cache : Cache)
    (fc : FunctionCall) (resp : FunctionResponse) (c2 : Cache)
    (h : processCall ct cache fc = some (resp, c2)) :
    resp.name = fc.name ∧ resp.id = fc.id ∧
    ∃ args,
      (∀ e, ct fc.name args = .error e → resp.response = .error e) ∧
      (∀ r, ct fc.name args = .ok r →
        resp.response = .result r ∨ resp.response = .error "TypeError") := by
  unfold processCall at h
  cases hi : injectSinceCommit cache fc with
  | raised => rw [hi] at h; simp at h
  | ok args =>
      rw [hi] at h
      have h2 : (match ct fc.name args with
          | Except.error e =>
              some (⟨fc.name, fc.id, .error e⟩, cache)
          | Except.ok r =>
            if fc.name = "ralph_changes" || fc.name = "ralph_status" then
              match cache_latest_commit args r cache with
              | .ok c3 => some (⟨fc.name, fc.id, .result r⟩, c3)
              | .raised c3 =>
                  some (⟨fc.name, fc.id, .error "TypeError"⟩, c3)
            else some (⟨fc.name, fc.id, .result r⟩, cache)) =
          some (resp, c2) := h
      clear h
      cases hct : ct fc.name args with
      | error e =>
          rw [hct] at h2
          have h3 : some (FunctionResponse.mk fc.name fc.id (.error e), cache) =
              some (resp, c2) := h2
          rw [Option.some.injEq, Prod.mk.injEq] at h3
          obtain ⟨hr, hc⟩ := h3
          subst hr
          refine ⟨rfl, rfl, args, ?_, ?_⟩
          · intro e2 he2
            rw [hct] at he2
            injection he2 with he2
            subst he2; rfl
          · intro r hr2
            rw [hct] at hr2
            exact Except.noConfusion hr2
      | ok r =>
          rw [hct] at h2
          have h3 : (if fc.name = "ralph_changes" ||
                fc.name = "ralph_status" then
              match cache_latest_commit args r cache with
              | .ok c3 => some (⟨fc.name, fc.id, .result r⟩, c3)
              | .raised c3 =>
                  some (⟨fc.name, fc.id, .error "TypeError"⟩, c3)
            else some (⟨fc.name, fc.id, .result r⟩, cache)) =
              some (resp, c2) := h2
          clear h2
          by_cases hn : (fc.name = "ralph_changes" ||
              fc.name = "ralph_status") = true
          · rw [if_pos hn] at h3
            cases hcl : cache_latest_commit args r cache with
            | ok c3 =>
                rw [hcl, Option.some.injEq, Prod.mk.injEq] at h3
                obtain ⟨hr, hc⟩ := h3
                subst hr
                refine ⟨rfl, rfl, args, ?_, ?_⟩
                · intro e2 he2
                  rw [hct] at he2
                  exact Except.noConfusion he2
                · intro r2 hr2
                  rw [hct] at hr2
                  injection hr2 with hr2
                  subst hr2
                  exact Or.inl rfl
            | raised c3 =>
                rw [hcl, Option.some.injEq, Prod.mk.injEq] at h3
                obtain ⟨hr, hc⟩ := h3
                subst hr
                refine ⟨rfl, rfl, args, ?_, ?_⟩
                · intro e2 he2
                  rw [hct] at he2
                  exact Except.noConfusion he2
                · intro r2 hr2
                  exact Or.inr rfl
          · rw [if_neg hn] at h3
            rw [Option.some.injEq, Prod.mk.injEq] at h3
            obtain ⟨hr, hc⟩ := h3
            subst hr
            refine ⟨rfl, rfl, args, ?_, ?_⟩
            · intro e2 he2
              rw [hct] at he2
              exact Except.noConfusion he2
            · intro r2 hr2
              rw [hct] at hr2
              injection hr2 with hr2
              subst hr2
              exact Or.inl rfl

theorem handle_tool_call_cons_none (ct : CallToolFn) (cache : Cache)
    (fc : FunctionCall) (rest : List FunctionCall)
    (hp : processCall ct cache fc = none) :
    handle_tool_call ct cache (fc :: rest) = ⟨[], cache, true⟩ := by
  simp [handle_tool_call, hp]

theorem handle_tool_call_cons_some (ct : CallToolFn) (cache : Cache)
    (fc : FunctionCall) (rest : List FunctionCall)
    (resp : FunctionResponse) (c2 : Cache)
    (hp : processCall ct cache fc = some (resp, c2)) :
    handle_tool_call ct cache (fc :: rest) =
      ⟨resp :: (handle_tool_call ct c2 rest).responses,
       (handle_tool_call ct c2 rest).cache,
       (handle_tool_call ct c2 rest).raised⟩ := by
  simp [handle_tool_call, hp]

/-- C1 (amended): whenever the auto-injection prelude raises on no call
of the request (the `raised` flag of the loop is clear), the dispatch
loop sends exactly one tool response per function call, correlated by
the name and id of the call; the body is `{"result": result}` when
`call_tool` returns normally and the commit-caching step does not
raise, and `{"error": str(e)}` when `call_tool` raises — with the one
deviation that a raise inside the commit-caching step replaces a
successful result body by a `TypeError` error body. -/
theorem handle_tool_call_one_response_each (ct : CallToolFn)
    (cache : Cache) (fcs : List FunctionCall)
    (h : (handle_tool_call ct cache fcs).raised = false) :
    (handle_tool_call ct cache fcs).responses.length = fcs.length ∧
    (∀ (i : Nat) (fc : FunctionCall), fcs[i]? = some fc →
      ∃ (resp : FunctionResponse),
        (handle_tool_call ct cache fcs).responses[i]? = some resp ∧
        resp.name = fc.name ∧ resp.id = fc.id ∧
        ∃ args,
          (∀ e, ct fc.name args = .error e → resp.response = .error e) ∧
          (∀ r, ct fc.name args = .ok r →
            resp.response = .result r ∨
            resp.response = .error "TypeError")) := by
  induction fcs generalizing cache with
  | nil =>
      refine ⟨rfl, ?_⟩
      intro i fc hfc
      simp at hfc
  | cons fc rest ih =>
      cases hp : processCall ct cache fc with
      | none =>
          rw [handle_tool_call_cons_none ct cache fc rest hp] at h
          exact Bool.noConfusion h
      | some val =>
          obtain ⟨resp, c2⟩ := val
          rw [handle_tool_call_cons_some ct cache fc rest resp c2 hp] at h ⊢
          obtain ⟨ihlen, ihidx⟩ := ih c2 h
          refine ⟨?_, ?_⟩
          · show (resp :: (handle_tool_call ct c2 rest).responses).length =
              (fc :: rest).length
            simp [ihlen]
          · intro i fc2 hfc
            cases i with
            | zero =>
                rw [List.getElem?_cons_zero, Option.some.injEq] at hfc
                subst hfc
                obtain ⟨h1, h2, h3⟩ := processCall_spec ct cache fc resp c2 hp
                exact ⟨resp, by simp, h1, h2, h3⟩
            | succ i =>
                rw [List.getElem?_cons_succ] at hfc
                obtain ⟨resp2, hr2, hrest⟩ := ihidx i fc2 hfc
                exact ⟨resp2, by simpa using hr2, hrest⟩

/-- Witness for C1 on a single successful `ralph_prd_read` call. -/
theorem handle_tool_call_one_response_each_witness :
    (handle_tool_call (fun _ _ => .ok .other) []
      [⟨"ralph_prd_read", some "id-1", none⟩]).raised = false ∧
    (handle_tool_call (fun _ _ => .ok .other) []
      [⟨"ralph_prd_read", some "id-1", none⟩]).responses.length = 1 :=
  ⟨rfl,
   (handle_tool_call_one_response_each (fun _ _ => .ok .other) []
      [⟨"ralph_prd_read", some "id-1", none⟩] rfl).1⟩

/-- C1 (counterexample to the claim as stated): a `ralph_changes` call
whose `project_dir` argument is a list makes the auto-injection prelude
call `dict.get` with an unhashable key, raising `TypeError` before the
`try` block, so the loop aborts and zero responses are sent for the one
function call — the session is left waiting. -/
theorem handle_tool_call_unacknowledged :
    (handle_tool_call (fun _ _ => .ok .other) []
      [⟨"ralph_changes", some "call-7",
        some (.cons "project_dir" (.arr .nil) .nil)⟩]).responses.length = 0 ∧
    (handle_tool_call (fun _ _ => .ok .other) []
      [⟨"ralph_changes", some "call-7",
        some (.cons "project_dir" (.arr .nil) .nil)⟩]).raised = true :=
  ⟨rfl, rfl⟩

/-- C2 (amended): the capture gate is checked atomically with the
enqueue when the outbound queue is below its bound: every `gateEnqueue`
step (the non-blocking `put`) happens with both flags clear, and so
does the start of a blocking `put` (`gateBlock`).  A frame whose `put`
blocked on a full queue can, however, be appended after the flags have
changed (see the counterexample). -/
theorem listen_audio_gate_check (s t : EngineState) (f : Nat) :
    (EngineStep s (.gateEnqueue f) t →
      s.playing = false ∧ s.muted = false ∧ t.outQueue = s.outQueue ++ [f]) ∧
    (EngineStep s .gateBlock t → s.playing = false ∧ s.muted = false) := by
  constructor
  · intro h
    cases h
    exact ⟨rfl, rfl, rfl⟩
  · intro h
    cases h
    exact ⟨rfl, rfl⟩

/-- Witness for C2 on a concrete non-blocking enqueue step. -/
theorem listen_audio_gate_check_witness :
    EngineStep ⟨false, false, [], [], .haveFrame 0⟩ (.gateEnqueue 0)
      ⟨false, false, [0], [], .reading⟩ ∧
    ((⟨false, false, [], [], .haveFrame 0⟩ : EngineState).playing = false ∧
     (⟨false, false, [], [], .haveFrame 0⟩ : EngineState).muted = false ∧
     (⟨false, false, [0], [], .reading⟩ : EngineState).outQueue =
       (⟨false, false, [], [], .haveFrame 0⟩ : EngineState).outQueue ++ [0]) :=
  ⟨EngineStep.gateEnqueue [] [] 0 (by decide),
   (listen_audio_gate_check ⟨false, false, [], [], .haveFrame 0⟩
      ⟨false, false, [0], [], .reading⟩ 0).1
     (EngineStep.gateEnqueue [] [] 0 (by decide))⟩

/-- C2 (counterexample to the claim as stated): from the initial state
there is an interleaving — fill the outbound queue to its bound of 5,
block the sixth `put`, receive an audio chunk (setting `playing`), then
free one slot — after which the blocked `put` completes and a frame is
added to `out_queue` while `playing = true`. -/
theorem listen_audio_enqueue_while_playing :
    EngineReaches engineInit
      ⟨true, false, [2, 3, 4, 5], [9], .blockedPut 6⟩ ∧
    EngineStep ⟨true, false, [2, 3, 4, 5], [9], .blockedPut 6⟩
      (.putComplete 6) ⟨true, false, [2, 3, 4, 5, 6], [9], .reading⟩ ∧
    (⟨true, false, [2, 3, 4, 5], [9],
        .blockedPut 6⟩ : EngineState).playing = true := by
  refine ⟨?_,
    EngineStep.putComplete true false [2, 3, 4, 5] [9] 6 (by decide), rfl⟩
  have t1 : EngineStepAny ⟨false, false, [], [], .reading⟩
      ⟨false, false, [], [], .haveFrame 1⟩ :=
    ⟨_, EngineStep.readFrame false false [] [] 1⟩
  have t2 : EngineStepAny ⟨false, false, [], [], .haveFrame 1⟩
      ⟨false, false, [1], [], .reading⟩ :=
    ⟨_, EngineStep.gateEnqueue [] [] 1 (by decide)⟩
  have t3 : EngineStepAny ⟨false, false, [1], [], .reading⟩
      ⟨false, false, [1], [], .haveFrame 2⟩ :=
    ⟨_, EngineStep.readFrame false false [1] [] 2⟩
  have t4 : EngineStepAny ⟨false, false, [1], [], .haveFrame 2⟩
      ⟨false, false, [1, 2], [], .reading⟩ :=
    ⟨_, EngineStep.gateEnqueue [1] [] 2 (by decide)⟩
  have t5 : EngineStepAny ⟨false, false, [1, 2], [], .reading⟩
      ⟨false, false, [1, 2], [], .haveFrame 3⟩ :=
    ⟨_, EngineStep.readFrame false false [1, 2] [] 3⟩
  have t6 : EngineStepAny ⟨false, false, [1, 2], [], .haveFrame 3⟩
      ⟨false, false, [1, 2, 3], [], .reading⟩ :=
    ⟨_, EngineStep.gateEnqueue [1, 2] [] 3 (by decide)⟩
  have t7 : EngineStepAny ⟨false, false, [1, 2, 3], [], .reading⟩
      ⟨false, false, [1, 2, 3], [], .haveFrame 4⟩ :=
    ⟨_, EngineStep.readFrame false false [1, 2, 3] [] 4⟩
  have t8 : EngineStepAny ⟨false, false, [1, 2, 3], [], .haveFrame 4⟩
      ⟨false, false, [1, 2, 3, 4], [], .reading⟩ :=
    ⟨_, EngineStep.gateEnqueue [1, 2, 3] [] 4 (by decide)⟩
  have t9 : EngineStepAny ⟨false, false, [1, 2, 3, 4], [], .reading⟩
      ⟨false, false, [1, 2, 3, 4], [], .haveFrame 5⟩ :=
    ⟨_, EngineStep.readFrame false false [1, 2, 3, 4] [] 5⟩
  have t10 : EngineStepAny ⟨false, false, [1, 2, 3, 4], [], .haveFrame 5⟩
      ⟨false, false, [1, 2, 3, 4, 5], [], .reading⟩ :=
    ⟨_, EngineStep.gateEnqueue [1, 2, 3, 4] [] 5 (by decide)⟩
  have t11 : EngineStepAny ⟨false, false, [1, 2, 3, 4, 5], [], .reading⟩
      ⟨false, false, [1, 2, 3, 4, 5], [], .haveFrame 6⟩ :=
    ⟨_, EngineStep.readFrame false false [1, 2, 3, 4, 5] [] 6⟩
  have t12 : EngineStepAny ⟨false, false, [1, 2, 3, 4, 5], [], .haveFrame 6⟩
      ⟨false, false, [1, 2, 3, 4, 5], [], .blockedPut 6⟩ :=
    ⟨_, EngineStep.gateBlock [1, 2, 3, 4, 5] [] 6 (by decide)⟩
  have t13 : EngineStepAny ⟨false, false, [1, 2, 3, 4, 5], [], .blockedPut 6⟩
      ⟨true, false, [1, 2, 3, 4, 5], [9], .blockedPut 6⟩ :=
    ⟨_, EngineStep.recvData false false [1, 2, 3, 4, 5] [] (.blockedPut 6) 9⟩
  have t14 : EngineStepAny ⟨true, false, [1, 2, 3, 4, 5], [9], .blockedPut 6⟩
      ⟨true, false, [2, 3, 4, 5], [9], .blockedPut 6⟩ :=
    ⟨_, EngineStep.sendPop true false 1 [2, 3, 4, 5] [9] (.blockedPut 6)⟩
  exact Relation.ReflTransGen.head t1 (Relation.ReflTransGen.head t2
    (Relation.ReflTransGen.head t3 (Relation.ReflTransGen.head t4
    (Relation.ReflTransGen.head t5 (Relation.ReflTransGen.head t6
    (Relation.ReflTransGen.head t7 (Relation.ReflTransGen.head t8
    (Relation.ReflTransGen.head t9 (Relation.ReflTransGen.head t10
    (Relation.ReflTransGen.head t11 (Relation.ReflTransGen.head t12
    (Relation.ReflTransGen.head t13 (Relation.ReflTransGen.head t14
      Relation.ReflTransGen.refl)))))))))))))

theorem JFields_isNil_iff (fs : JFields) : fs.isNil = true ↔ fs = .nil := by
  cases fs <;> simp [JFields.isNil]

/-- C9: in one `_poll` step, (a) with nothing tracked after discovery
and the staleness timeout elapsed since the last poll that saw
containers, the merged status view is cleared and the interval decays
to idle; (b) with tracked projects whose merged results are non-empty
and report container data, the step records `now` as the fresh
non-empty timestamp and switches the interval to the active value. -/
theorem agent_panel_poll_stale_and_active (st : PanelState) (now : Int)
    (rows : List DockerRow) (results : String → PollCallResult) :
    ((applyDiscovery st rows).tracked = [] →
      now - (applyDiscovery st rows).lastNonempty > STALE_TIMEOUT →
      ∃ st2, poll st now rows results = some st2 ∧
        st2.statusData = .nil ∧ st2.pollInterval = POLL_IDLE) ∧
    ((applyDiscovery st rows).tracked ≠ [] →
      mergedOf (applyDiscovery st rows).tracked results ≠ .nil →
      anyContainers (mergedOf (applyDiscovery st rows).tracked results) =
        some true →
      poll st now rows results =
        some { applyDiscovery st rows with
               lastNonempty := now, pollInterval := POLL_ACTIVE,
               statusData :=
                 mergedOf (applyDiscovery st rows).tracked results }) := by
  constructor
  · intro h1 h2
    refine ⟨{ applyDiscovery st rows with
              statusData := .nil, pollInterval := POLL_IDLE }, ?_, rfl, rfl⟩
    simp only [poll]
    rw [h1]
    simp only [List.isEmpty_nil, if_true]
    cases hsd : (applyDiscovery st rows).statusData with
    | nil => simp [hsd]
    | cons k v rest => simp [hsd, h2, JFields.isNil]
  · intro h1 h2 h3
    simp only [poll]
    have hne : (applyDiscovery st rows).tracked.isEmpty = false := by
      cases htr : (applyDiscovery st rows).tracked with
      | nil => exact absurd htr h1
      | cons a as => rfl
    rw [hne]
    simp only [Bool.false_eq_true, if_false]
    have hmn : (mergedOf (applyDiscovery st rows).tracked results).isNil =
        false := by
      cases hm : mergedOf (applyDiscovery st rows).tracked results with
      | nil => exact absurd hm h2
      | cons k v rest => rfl
    rw [hmn]
    simp only [Bool.false_eq_true, if_false]
    rw [h3]

/-- Witness for C9: an idle panel past the staleness timeout clears,
and a tracked project reporting containers goes active. -/
theorem agent_panel_poll_stale_and_active_witness :
    (∃ st2, poll ⟨[], [], [], .cons "p" .null .nil, 0, 30⟩ 31 []
        (fun _ => .exc) = some st2 ∧
      st2.statusData = .nil ∧ st2.pollInterval = POLL_IDLE) ∧
    poll ⟨["/p"], [], [], .nil, 0, 30⟩ 5 []
      (fun _ => .ok (.str (.parsed (.obj (.cons "containers"
        (.arr (.cons Json.null .nil)) .nil))))) =
      some ⟨["/p"], [], [],
        .cons "p" (.obj (.cons "containers"
          (.arr (.cons Json.null .nil)) .nil)) .nil, 5, POLL_ACTIVE⟩ := by
  constructor
  · exact (agent_panel_poll_stale_and_active
      ⟨[], [], [], .cons "p" .null .nil, 0, 30⟩ 31 [] (fun _ => .exc)).1
      rfl (by decide)
  · have h := (agent_panel_poll_stale_and_active
      ⟨["/p"], [], [], .nil, 0, 30⟩ 5 []
      (fun _ => .ok (.str (.parsed (.obj (.cons "containers"
        (.arr (.cons Json.null .nil)) .nil)))))).2
      (by decide) (fun hh => JFields.noConfusion hh) rfl
    exact h
